import Mathlib

/-
  Verification of the voter-search core: transliteration engine, search-key
  generator, hierarchical index resolver and result assembler, embedded
  shallowly from the TypeScript sources (Dashboard.tsx search core and the
  transliteration module it imports).

  Strings are modelled as lists of characters (`Str`); the remote key-value
  store is modelled as association lists / lookup functions; asynchronous
  calls that may fail are modelled with `Except` in the fallible variants.
-/

set_option maxHeartbeats 1000000

namespace VoterSearch

abbrev Str := List Char

/-- JS `String.prototype.trim`: drop whitespace from both ends. -/
def trimChars (s : Str) : Str :=
  ((s.dropWhile Char.isWhitespace).reverse.dropWhile Char.isWhitespace).reverse

/-- JS `toLowerCase` (ASCII-relevant part; Devanagari has no case). -/
def lowerChars (s : Str) : Str := s.map Char.toLower

/-- JS `toUpperCase` (ASCII-relevant part). -/
def upperChars (s : Str) : Str := s.map Char.toUpper

/-- JS array `join(' ')`: interleave a single space between tokens. -/
def joinSp : List Str → Str
  | [] => []
  | [t] => t
  | t :: ts => t ++ ' ' :: joinSp ts

/-- Recursion core of `splitWs`; the fuel only bounds the recursion depth
(every step consumes at least one character, so `s.length` is enough). -/
def splitWsGo : Nat → Str → List Str
  | _, [] => [[]]
  | 0, _ :: _ => [[]]
  | fuel + 1, c :: rest =>
    if c.isWhitespace then
      [] :: splitWsGo fuel (rest.dropWhile Char.isWhitespace)
    else
      match splitWsGo fuel rest with
      | [] => [[c]]
      | t :: ts => (c :: t) :: ts

/-- JS `split(/\s+/)`: split on maximal whitespace runs. -/
def splitWs (s : Str) : List Str := splitWsGo s.length s

/-- JS `split(' ')`: split on every single occurrence of the separator. -/
def splitChar (sep : Char) : Str → List Str
  | [] => [[]]
  | c :: rest =>
    if c = sep then [] :: splitChar sep rest
    else
      match splitChar sep rest with
      | [] => [[c]]
      | t :: ts => (c :: t) :: ts

/-- Substring test: does `pre` occur at the start of `hay`?  (helper for JS `includes`). -/
def startsWithSub : Str → Str → Bool
  | _, [] => true
  | [], _ :: _ => false
  | h :: hs, p :: ps => h = p && startsWithSub hs ps

/-- JS `String.prototype.includes`: `needle` occurs somewhere inside `hay`. -/
def strContains : Str → Str → Bool
  | [], needle => needle.isEmpty
  | c :: rest, needle => startsWithSub (c :: rest) needle || strContains rest needle

/-- Lookup in a table of string pairs (JS object used as a dictionary);
keys are compared as character lists. -/
def lookupTbl (tbl : List (String × String)) (k : Str) : Option Str :=
  match tbl with
  | [] => none
  | (a, b) :: rest => if a.data = k then some b.data else lookupTbl rest k

/-- The `transliterationMap` object of the transliteration module: romanized
fragment → Devanagari output, in source order. -/
def transliterationMap : List (String × String) :=
  [ ("a", "अ"), ("aa", "आ"), ("i", "इ"), ("ii", "ई"), ("u", "उ"), ("uu", "ऊ"),
    ("e", "ए"), ("ai", "ऐ"), ("o", "ओ"), ("au", "औ"),
    ("k", "क"), ("kh", "ख"), ("g", "ग"), ("gh", "घ"), ("ng", "ङ"),
    ("ch", "च"), ("chh", "छ"), ("j", "ज"), ("jh", "झ"), ("ny", "ञ"),
    ("t", "त"), ("th", "थ"), ("d", "द"), ("dh", "ध"), ("n", "न"),
    ("p", "प"), ("ph", "फ"), ("b", "ब"), ("bh", "भ"), ("m", "म"),
    ("y", "य"), ("r", "र"), ("l", "ल"), ("v", "व"), ("w", "व"),
    ("s", "स"), ("sh", "श"), ("shh", "ष"), ("h", "ह"),
    ("tt", "ट"), ("tth", "ठ"), ("dd", "ड"), ("ddh", "ढ"), ("nn", "ण"),
    ("ksh", "क्ष"), ("gy", "ज्ञ"),
    ("ka", "क"), ("ki", "कि"), ("kii", "की"), ("ku", "कु"), ("kuu", "कू"),
    ("ke", "के"), ("kai", "कै"), ("ko", "को"), ("kau", "कौ") ]

/-- The `commonWordMap` object: whole-word dictionary of common names. -/
def commonWordMap : List (String × String) :=
  [ ("ankush", "अंकुश"), ("ananda", "आनंद"), ("sargar", "सरगर"),
    ("dashrath", "दशरथ"), ("usha", "उषा"), ("ranjana", "रंजना"),
    ("badhale", "बधाले"), ("mangesh", "मंगेश"), ("ramdas", "रामदास"),
    ("patil", "पाटील"), ("pawar", "पवार"), ("kulkarni", "कुलकर्णी"),
    ("deshmukh", "देशमुख"), ("jadhav", "जाधव"), ("more", "मोरे"),
    ("shinde", "शिंदे"), ("gaikwad", "गायकवाड"), ("rao", "राव"),
    ("reddy", "रेड्डी"), ("bai", "बाई"), ("devi", "देवी") ]

/-- Is the code point in the Devanagari Unicode block (U+0900–U+097F)? -/
def isDevanagari (c : Char) : Bool := 0x0900 ≤ c.toNat && c.toNat ≤ 0x097F

/-- `containsMarathi`: the regex test `/[ऀ-ॿ]/.test(text)`. -/
def containsMarathi (s : Str) : Bool := s.any isDevanagari

/-- `transliterateWord`: greedy longest-match scan of a single token.  At each
position it tries the 3-, 2-, then 1-character substring (JS `substr` clamps
at the end of the word, which `List.take` reproduces); an unmatched character
is copied verbatim. -/
def transliterateWordGo : Nat → Str → Str
  | _, [] => []
  | 0, _ :: _ => []
  | fuel + 1, c :: rest =>
    match lookupTbl transliterationMap ((c :: rest).take 3) with
    | some v => v ++ transliterateWordGo fuel ((c :: rest).drop 3)
    | none =>
      match lookupTbl transliterationMap ((c :: rest).take 2) with
      | some v => v ++ transliterateWordGo fuel ((c :: rest).drop 2)
      | none =>
        match lookupTbl transliterationMap [c] with
        | some v => v ++ transliterateWordGo fuel rest
        | none => c :: transliterateWordGo fuel rest

/-- `transliterateWord` proper: run the scan; `w.length` steps always
suffice because every iteration consumes at least one character. -/
def transliterateWord (w : Str) : Str := transliterateWordGo w.length w

/-- The per-token mapping inside `transliterateToMarathi`: dictionary hit
first, otherwise the greedy character scan. -/
def translitToken (w : Str) : Str :=
  match lookupTbl commonWordMap w with
  | some v => v
  | none => transliterateWord w

/-- `transliterateToMarathi`: returns the input unchanged when it is empty or
already contains Devanagari; otherwise lower-cases, trims, splits on
whitespace, maps each token and re-joins with single spaces. -/
def transliterateToMarathi (s : Str) : Str :=
  if s = [] ∨ containsMarathi s then s
  else joinSp ((splitWs (trimChars (lowerChars s))).map translitToken)

/-- Spec-side decomposition of the greedy scan: the list of consumed source
segments, in order.  Each segment is either a table match (tried at width
3, 2, 1) or a single unmatched character. -/
def greedyChunksGo : Nat → Str → List Str
  | _, [] => []
  | 0, _ :: _ => []
  | fuel + 1, c :: rest =>
    if (lookupTbl transliterationMap ((c :: rest).take 3)).isSome then
      (c :: rest).take 3 :: greedyChunksGo fuel ((c :: rest).drop 3)
    else if (lookupTbl transliterationMap ((c :: rest).take 2)).isSome then
      (c :: rest).take 2 :: greedyChunksGo fuel ((c :: rest).drop 2)
    else
      [c] :: greedyChunksGo fuel rest

/-- The segment decomposition of a whole token. -/
def greedyChunks (w : Str) : List Str := greedyChunksGo w.length w

/-- What one consumed segment contributes to the output: its table image, or
itself verbatim when unmatched. -/
def chunkOut (c : Str) : Str := (lookupTbl transliterationMap c).getD c

/-- `generateSearchKeys`: trim and transliterate the three name fields, then
emit the hierarchical keys for the non-empty combinations, most specific
first (the three sequential `keys.push` calls become a concatenation). -/
def generateSearchKeys (firstName middleName lastName : Str) : List Str :=
  let first := transliterateToMarathi (trimChars firstName)
  let middle := transliterateToMarathi (trimChars middleName)
  let last := transliterateToMarathi (trimChars lastName)
  (if first ≠ [] ∧ middle ≠ [] ∧ last ≠ [] then [last ++ ['_'] ++ first ++ ['_'] ++ middle] else [])
    ++ (if first ≠ [] ∧ last ≠ [] then [first ++ ['_'] ++ last] else [])
    ++ (if last ≠ [] then [last] else [])

/-- An index tier of the remote store: search key → the keys of the stored
membership object (`none` = snapshot does not exist). -/
abbrev Tier := Str → Option (List Str)

/-- The ids a tier yields at a key (no snapshot, or an empty membership
object, yields nothing). -/
def hitsOf (t : Tier) (k : Str) : List Str := (t k).getD []

/-- `voterIds.add(id)` on a JS `Set`: append only if not already present
(insertion order preserved). -/
def insertId (acc : List Str) (i : Str) : List Str :=
  if i ∈ acc then acc else acc ++ [i]

/-- `Object.keys(indexData).forEach(id => voterIds.add(id))`. -/
def insertIds (acc : List Str) (ids : List Str) : List Str := ids.foldl insertId acc

/-- The loop over the generated keys for the first tier (`name_index`): on a
key whose snapshot exists, add its ids and return early (`Sum.inl`) as soon
as the accumulated set is non-empty; otherwise carry the accumulator to the
broader tiers (`Sum.inr`). -/
def tier1Go (t1 : Tier) : List Str → List Str → (List Str ⊕ List Str)
  | [], acc => Sum.inr acc
  | k :: ks, acc =>
    match t1 k with
    | none => tier1Go t1 ks acc
    | some ids =>
      let acc' := insertIds acc ids
      if acc'.length > 0 then Sum.inl acc' else tier1Go t1 ks acc'

/-- The first generated key on which the first tier yields any membership
(spec-side description of where the early return fires). -/
def firstHitKey (t1 : Tier) : List Str → Option Str
  | [] => none
  | k :: ks => if hitsOf t1 k ≠ [] then some k else firstHitKey t1 ks

/-- The loop over the generated keys for one of the broader tiers: accumulate
every hit, no early return. -/
def runTier (t : Tier) (ks : List Str) (acc : List Str) : List Str :=
  ks.foldl (fun a k => match t k with | none => a | some ids => insertIds a ids) acc

/-- `searchByNameInIndex`: probe the tiers in the fixed hierarchy
`name_index`, `name_index_first_last`, `name_index_last`, each over all
generated keys, returning early only from the first tier. -/
def searchByNameInIndex (t1 t2 t3 : Tier) (firstName middleName lastName : Str) : List Str :=
  let searchKeys := generateSearchKeys firstName middleName lastName
  match tier1Go t1 searchKeys [] with
  | Sum.inl ids => ids
  | Sum.inr acc => runTier t3 searchKeys (runTier t2 searchKeys acc)

/-- The raw voter record stored under `voters/{id}` (fields used by the
search core). -/
structure VoterData where
  name : Str
  gender : Str
  age : Nat
  serial_number : Nat
  booth_center : Str
  booth_number : Str
  village : Str
  prabhag_number : Str
  gan : Str
  gan_full : Str
  gat : Str
deriving DecidableEq

/-- The `name_parts` display object. -/
structure NameParts where
  last : Str
  first : Str
  middle : Str
deriving DecidableEq

/-- `parseMarathiName`: positional tokenization of the full name on single
spaces (JS `split(' ')`). -/
def parseMarathiName (fullName : Str) : NameParts :=
  let parts := splitChar ' ' fullName
  if parts.length ≥ 3 then
    { last := parts.getD (parts.length - 1) []
      first := parts.getD 0 []
      middle := joinSp ((parts.drop 1).take (parts.length - 2)) }
  else if parts.length = 2 then
    { last := parts.getD 1 [], first := parts.getD 0 [], middle := [] }
  else
    { last := parts.getD 0 [], first := parts.getD 0 [], middle := [] }

/-- A voter record reshaped for display. -/
structure VoterWithParsedName where
  data : VoterData
  name_parts : NameParts
  full_name : Str
  reference : Str
deriving DecidableEq

/-- `processVoterData`: derive the name parts and build the composite
reference string from the locality fields in the fixed source order. -/
def processVoterData (_ : Str) (voterData : VoterData) : VoterWithParsedName :=
  { data := voterData
    name_parts := parseMarathiName voterData.name
    full_name := voterData.name
    reference :=
      ("मतदार क्र. ".data) ++ (Nat.repr voterData.serial_number).data
        ++ (", मतदार केंद्र: ".data) ++ voterData.booth_center
        ++ (", बूथ: ".data) ++ voterData.booth_number
        ++ (", गाव: ".data) ++ voterData.village
        ++ (", प्रभाग: ".data) ++ voterData.prabhag_number
        ++ (", गण: ".data) ++ voterData.gan
        ++ (", गट: ".data) ++ voterData.gat }

/-- One resolved search result: voter id paired with its display record. -/
abbrev SearchResult := Str × VoterWithParsedName

/-- The primary record store `voters/…` as a lookup function. -/
abbrev VoterStore := Str → Option VoterData

/-- Fetch a single id, `null` when the snapshot does not exist. -/
def fetchVoter (voters : VoterStore) (id : Str) : Option SearchResult :=
  (voters id).map (fun v => (id, processVoterData id v))

/-- Recursion core of `getVotersByIds`: slice off a batch of (at most) 10
ids, fetch the batch (`Promise.all` keeps batch order; nulls are dropped),
then continue with the rest. -/
def getVotersByIdsGo (voters : VoterStore) : Nat → List Str → List SearchResult
  | _, [] => []
  | 0, _ :: _ => []
  | fuel + 1, i :: ids =>
    ((i :: ids).take 10).filterMap (fetchVoter voters)
      ++ getVotersByIdsGo voters fuel ((i :: ids).drop 10)

/-- `getVotersByIds`: batched fetch of all resolved ids. -/
def getVotersByIds (voters : VoterStore) (voterIds : List Str) : List SearchResult :=
  getVotersByIdsGo voters voterIds.length voterIds

/-- The batch decomposition (`slice(i, i + batchSize)` with batch size 10),
stated separately so the batching shape can be reasoned about. -/
def batchesGo {α : Type} : Nat → List α → List (List α)
  | _, [] => []
  | 0, _ :: _ => []
  | fuel + 1, x :: l =>
    ((x :: l).take 10) :: batchesGo fuel ((x :: l).drop 10)

/-- All consecutive batches of size 10 of a list. -/
def batches {α : Type} (l : List α) : List (List α) := batchesGo l.length l

/-- The fallback linear scan of `searchByVoterId`: `Object.entries(voters)`
in store order, case-insensitive containment on the id, first 10 kept. -/
def scanVoters (voters : List (Str × VoterData)) (voterId : Str) : List SearchResult :=
  (voters.filterMap (fun p =>
      if strContains (lowerChars p.1) (lowerChars voterId)
      then some (p.1, processVoterData p.1 p.2) else none)).take 10

/-- `searchByVoterId`: exact lookup on the primary store first; only on a
miss, the linear substring scan capped at 10. -/
def searchByVoterId (voters : List (Str × VoterData)) (voterId : Str) : List SearchResult :=
  match List.lookup voterId voters with
  | some v => [(voterId, processVoterData voterId v)]
  | none => scanVoters voters voterId

/-- The search form state. -/
structure SearchFormData where
  firstName : Str
  middleName : Str
  lastName : Str
  voterId : Str

/-- `performSearch`: all fields empty → nothing; a non-empty voter id routes
to the id path on the trimmed upper-cased id; otherwise any non-empty name
field routes to name resolution followed by the batched fetch. -/
def performSearch (t1 t2 t3 : Tier) (voters : List (Str × VoterData))
    (formData : SearchFormData) : List SearchResult :=
  if formData.firstName = [] ∧ formData.middleName = [] ∧ formData.lastName = []
      ∧ formData.voterId = [] then []
  else if formData.voterId ≠ [] then
    searchByVoterId voters (upperChars (trimChars formData.voterId))
  else if formData.firstName ≠ [] ∨ formData.middleName ≠ [] ∨ formData.lastName ≠ [] then
    let voterIds := searchByNameInIndex t1 t2 t3 formData.firstName formData.middleName formData.lastName
    if voterIds.length = 0 then []
    else getVotersByIds (fun id => List.lookup id voters) voterIds
  else []

/-  Fallible variants: every remote read (`await get(...)`) may throw; the
    `Except` layer records exactly where the source catches. -/

/-- A tier whose individual probes may fail. -/
abbrev TierE (ε : Type) := Str → Except ε (Option (List Str))

/-- A record store whose individual reads may fail. -/
abbrev VoterStoreE (ε : Type) := Str → Except ε (Option VoterData)

/-- The effective tier seen through the per-probe `try/catch`: a failed
probe behaves as a missing snapshot. -/
def effTier {ε : Type} (t : TierE ε) : Tier :=
  fun k => match t k with | Except.ok o => o | Except.error _ => none

/-- The effective record store seen through the per-fetch `try/catch`. -/
def effVoters {ε : Type} (vs : VoterStoreE ε) : VoterStore :=
  fun id => match vs id with | Except.ok o => o | Except.error _ => none

/-- First-tier loop with fallible probes: the inner `try/catch` turns an
error into "continue with the next key". -/
def tier1GoE {ε : Type} (t1 : TierE ε) : List Str → List Str → (List Str ⊕ List Str)
  | [], acc => Sum.inr acc
  | k :: ks, acc =>
    match t1 k with
    | Except.error _ => tier1GoE t1 ks acc
    | Except.ok none => tier1GoE t1 ks acc
    | Except.ok (some ids) =>
      let acc' := insertIds acc ids
      if acc'.length > 0 then Sum.inl acc' else tier1GoE t1 ks acc'

/-- Broader-tier loop with fallible probes. -/
def runTierE {ε : Type} (t : TierE ε) (ks : List Str) (acc : List Str) : List Str :=
  ks.foldl (fun a k =>
    match t k with
    | Except.error _ => a
    | Except.ok none => a
    | Except.ok (some ids) => insertIds a ids) acc

/-- `searchByNameInIndex` over fallible stores.  The outer `try/catch` of the
source never fires (everything after the per-probe catches is total), so the
function returns a plain list. -/
def searchByNameInIndexE {ε : Type} (t1 t2 t3 : TierE ε)
    (firstName middleName lastName : Str) : List Str :=
  let searchKeys := generateSearchKeys firstName middleName lastName
  match tier1GoE t1 searchKeys [] with
  | Sum.inl ids => ids
  | Sum.inr acc => runTierE t3 searchKeys (runTierE t2 searchKeys acc)

/-- Per-id fetch with the per-id `try/catch`: an error is dropped exactly
like a missing record. -/
def fetchVoterE {ε : Type} (vs : VoterStoreE ε) (id : Str) : Option SearchResult :=
  match vs id with
  | Except.ok (some v) => some (id, processVoterData id v)
  | Except.ok none => none
  | Except.error _ => none

/-- `getVotersByIds` over a fallible store. -/
def getVotersByIdsGoE {ε : Type} (vs : VoterStoreE ε) : Nat → List Str → List SearchResult
  | _, [] => []
  | 0, _ :: _ => []
  | fuel + 1, i :: ids =>
    ((i :: ids).take 10).filterMap (fetchVoterE vs)
      ++ getVotersByIdsGoE vs fuel ((i :: ids).drop 10)

/-- Batched fetch over a fallible store. -/
def getVotersByIdsE {ε : Type} (vs : VoterStoreE ε) (voterIds : List Str) : List SearchResult :=
  getVotersByIdsGoE vs voterIds.length voterIds

/-- `searchByVoterId` over fallible reads: its single `try/catch` wraps the
whole body, so an error on either read degrades to the empty result. -/
def searchByVoterIdE {ε : Type} (exactGet : VoterStoreE ε)
    (allGet : Except ε (List (Str × VoterData))) (voterId : Str) : List SearchResult :=
  match exactGet voterId with
  | Except.error _ => []
  | Except.ok (some v) => [(voterId, processVoterData voterId v)]
  | Except.ok none =>
    match allGet with
    | Except.error _ => []
    | Except.ok voters => scanVoters voters voterId

/-- `performSearch` over fallible stores: by construction it always returns a
result list — no exception escapes. -/
def performSearchE {ε : Type} (t1 t2 t3 : TierE ε) (exactGet : VoterStoreE ε)
    (allGet : Except ε (List (Str × VoterData))) (formData : SearchFormData) : List SearchResult :=
  if formData.firstName = [] ∧ formData.middleName = [] ∧ formData.lastName = []
      ∧ formData.voterId = [] then []
  else if formData.voterId ≠ [] then
    searchByVoterIdE exactGet allGet (upperChars (trimChars formData.voterId))
  else if formData.firstName ≠ [] ∨ formData.middleName ≠ [] ∨ formData.lastName ≠ [] then
    let voterIds := searchByNameInIndexE t1 t2 t3 formData.firstName formData.middleName formData.lastName
    if voterIds.length = 0 then []
    else getVotersByIdsE exactGet voterIds
  else []

/-- Spec-side composition of a key from segments joined by the `_`
delimiter. -/
def joinUnd : List Str → Str
  | [] => []
  | [t] => t
  | t :: ts => t ++ '_' :: joinUnd ts

/-- Concrete first tier (`name_index`) of the spec's worked example. -/
def exampleTier1 : Tier :=
  fun k => if k = ("बधाले_मंगेश_रामदास".data) then some [("UXM1".data)] else none

/-- Concrete second tier (`name_index_first_last`) of the worked example. -/
def exampleTier2 : Tier := fun _ => none

/-- Concrete third tier (`name_index_last`) of the worked example. -/
def exampleTier3 : Tier :=
  fun k => if k = ("बधाले".data) then some [("UXM1".data), ("UXM2".data)] else none

/-- A concrete raw voter record. -/
def exampleVoter : VoterData :=
  { name := "मंगेश रामदास बधाले".data
    gender := "पुरुष".data
    age := 35
    serial_number := 101
    booth_center := "शाळा".data
    booth_number := "1".data
    village := "इंदुरी".data
    prabhag_number := "2".data
    gan := "अ".data
    gan_full := "अ गण".data
    gat := "ब".data }

/-- A concrete one-record primary store. -/
def exampleVoters : List (Str × VoterData) := [(("UXM8227381".data), exampleVoter)]

/-- A form submission carrying only a (lower-cased, padded) voter id. -/
def exampleFormId : SearchFormData :=
  { firstName := [], middleName := [], lastName := [], voterId := " uxm8227381 ".data }

/-- Twenty-five distinct single-character ids. -/
def ids25 : List Str := (List.range 25).map (fun n => [Char.ofNat (65 + n)])

/-  ------------------------------------------------------------------
    Lemmas about the insertion-ordered set accumulator and the tier loops
    ------------------------------------------------------------------ -/

theorem mem_insertId {acc : List Str} {i a : Str} :
    a ∈ insertId acc i ↔ a ∈ acc ∨ a = i := by
  by_cases hmem : i ∈ acc
  · simp only [insertId, if_pos hmem]
    exact ⟨Or.inl, fun h => h.elim id (fun e => e ▸ hmem)⟩
  · simp [insertId, if_neg hmem]

theorem nodup_insertId {acc : List Str} {i : Str} (h : acc.Nodup) :
    (insertId acc i).Nodup := by
  by_cases hmem : i ∈ acc
  · simpa [insertId, if_pos hmem] using h
  · simp [insertId, if_neg hmem, List.nodup_append, h, hmem]

theorem mem_insertIds {ids acc : List Str} {a : Str} :
    a ∈ insertIds acc ids ↔ a ∈ acc ∨ a ∈ ids := by
  induction ids generalizing acc with
  | nil => simp [insertIds]
  | cons i ids ih =>
    show a ∈ insertIds (insertId acc i) ids ↔ _
    rw [ih, mem_insertId]
    simp only [List.mem_cons]
    tauto

theorem nodup_insertIds {ids acc : List Str} (h : acc.Nodup) :
    (insertIds acc ids).Nodup := by
  induction ids generalizing acc with
  | nil => exact h
  | cons i ids ih => exact ih (nodup_insertId h)

theorem insertIds_ne_nil {ids : List Str} (h : ids ≠ []) :
    insertIds [] ids ≠ [] := by
  cases ids with
  | nil => exact absurd rfl h
  | cons i ids =>
    intro hc
    have : i ∈ insertIds [] (i :: ids) := mem_insertIds.2 (Or.inr (List.mem_cons_self _ _))
    rw [hc] at this
    exact absurd this (List.not_mem_nil _)

theorem runTier_cons (t : Tier) (k : Str) (ks : List Str) (acc : List Str) :
    runTier t (k :: ks) acc = runTier t ks (insertIds acc (hitsOf t k)) := by
  unfold runTier
  rw [List.foldl_cons]
  cases ht : t k <;> simp [hitsOf, ht, insertIds]

theorem mem_runTier {t : Tier} {ks acc : List Str} {a : Str} :
    a ∈ runTier t ks acc ↔ a ∈ acc ∨ ∃ k ∈ ks, a ∈ hitsOf t k := by
  induction ks generalizing acc with
  | nil => simp [runTier]
  | cons k ks ih =>
    rw [runTier_cons, ih, mem_insertIds]
    simp only [List.mem_cons]
    constructor
    · rintro ((h | h) | ⟨k', hk', h⟩)
      · exact Or.inl h
      · exact Or.inr ⟨k, Or.inl rfl, h⟩
      · exact Or.inr ⟨k', Or.inr hk', h⟩
    · rintro (h | ⟨k', (rfl | hk'), h⟩)
      · exact Or.inl (Or.inl h)
      · exact Or.inl (Or.inr h)
      · exact Or.inr ⟨k', hk', h⟩

theorem nodup_runTier {t : Tier} {ks acc : List Str} (h : acc.Nodup) :
    (runTier t ks acc).Nodup := by
  induction ks generalizing acc with
  | nil => exact h
  | cons k ks ih => rw [runTier_cons]; exact ih (nodup_insertIds h)

theorem tier1Go_of_all_empty {t1 : Tier} {ks : List Str}
    (h : ∀ k ∈ ks, hitsOf t1 k = []) : tier1Go t1 ks [] = Sum.inr [] := by
  induction ks with
  | nil => rfl
  | cons k ks ih =>
    have hk : hitsOf t1 k = [] := h k (List.mem_cons_self _ _)
    have hks : ∀ k' ∈ ks, hitsOf t1 k' = [] := fun k' hk' => h k' (List.mem_cons_of_mem _ hk')
    unfold tier1Go
    cases ht : t1 k with
    | none => exact ih hks
    | some ids =>
      have : ids = [] := by simpa [hitsOf, ht] using hk
      subst this
      simpa [insertIds, insertId] using ih hks

theorem tier1Go_of_firstHit {t1 : Tier} {ks : List Str} {k0 : Str}
    (h : firstHitKey t1 ks = some k0) :
    tier1Go t1 ks [] = Sum.inl (insertIds [] (hitsOf t1 k0)) := by
  induction ks with
  | nil => simp [firstHitKey] at h
  | cons k ks ih =>
    by_cases hne : hitsOf t1 k ≠ []
    · rw [firstHitKey, if_pos hne] at h
      injection h with h
      subst h
      unfold tier1Go
      cases ht : t1 k with
      | none => exact absurd (by simp [hitsOf, ht]) hne
      | some ids =>
        have hids : ids ≠ [] := by simpa [hitsOf, ht] using hne
        have hlen : 0 < (insertIds [] ids).length :=
          List.length_pos.2 (insertIds_ne_nil hids)
        simp only [if_pos hlen, hitsOf, ht, Option.getD_some]
    · rw [firstHitKey, if_neg hne] at h
      have hk : hitsOf t1 k = [] := not_not.mp hne
      unfold tier1Go
      cases ht : t1 k with
      | none => exact ih h
      | some ids =>
        have : ids = [] := by simpa [hitsOf, ht] using hk
        subst this
        simpa [insertIds, insertId] using ih h

theorem firstHitKey_eq_none {t1 : Tier} {ks : List Str}
    (h : ∀ k ∈ ks, hitsOf t1 k = []) : firstHitKey t1 ks = none := by
  induction ks with
  | nil => rfl
  | cons k ks ih =>
    rw [firstHitKey, if_neg (not_not.mpr (h k (List.mem_cons_self _ _)))]
    exact ih fun k' hk' => h k' (List.mem_cons_of_mem _ hk')

/-  ------------------------------------------------------------------
    Lemmas about the transliteration tables and the greedy scan
    ------------------------------------------------------------------ -/

theorem lookupTbl_mem {tbl : List (String × String)} {k v : Str}
    (h : lookupTbl tbl k = some v) : ∃ p ∈ tbl, p.1.data = k ∧ p.2.data = v := by
  induction tbl with
  | nil => simp [lookupTbl] at h
  | cons p tbl ih =>
    obtain ⟨a, b⟩ := p
    rw [lookupTbl] at h
    by_cases hc : a.data = k
    · rw [if_pos hc] at h
      injection h with h
      exact ⟨(a, b), List.mem_cons_self _ _, hc, h⟩
    · rw [if_neg hc] at h
      obtain ⟨q, hq, h1, h2⟩ := ih h
      exact ⟨q, List.mem_cons_of_mem _ hq, h1, h2⟩

theorem transliterationMap_facts :
    ∀ p ∈ transliterationMap,
      p.2.data ≠ [] ∧ p.2.data.length ≤ 3 ∧ (p.1.data.length = 1 → p.2.data.length ≤ 1) := by
  decide

theorem commonWordMap_facts :
    ∀ p ∈ commonWordMap,
      p.1.data ≠ [] ∧ p.2.data ≠ [] ∧ p.1.data.length ≤ 3 * p.2.data.length
        ∧ 2 * p.2.data.length ≤ 3 * p.1.data.length := by
  decide

theorem twGo_eq_chunksGo :
    ∀ (fuel : Nat) (w : Str), w.length ≤ fuel →
      transliterateWordGo fuel w = ((greedyChunksGo fuel w).map chunkOut).flatten := by
  intro fuel
  induction fuel with
  | zero =>
    intro w hw
    have : w = [] := List.eq_nil_of_length_eq_zero (Nat.le_zero.mp hw)
    subst this
    rfl
  | succ fuel ih =>
    intro w hw
    cases w with
    | nil => rfl
    | cons c rest =>
      have hlen : rest.length + 1 ≤ fuel + 1 := by simpa using hw
      rw [transliterateWordGo, greedyChunksGo]
      cases h3 : lookupTbl transliterationMap ((c :: rest).take 3) with
      | some v =>
        simp only [h3, Option.isSome_some, if_true, List.map_cons, List.flatten_cons,
          chunkOut, Option.getD_some]
        rw [ih _ (by simp only [List.length_drop, List.length_cons]; omega)]
      | none =>
        simp only [h3, Option.isSome_none, Bool.false_eq_true, if_false]
        cases h2 : lookupTbl transliterationMap ((c :: rest).take 2) with
        | some v =>
          simp only [h2, Option.isSome_some, if_true, List.map_cons, List.flatten_cons,
            chunkOut, Option.getD_some]
          rw [ih _ (by simp only [List.length_drop, List.length_cons]; omega)]
        | none =>
          simp only [h2, Option.isSome_none, Bool.false_eq_true, if_false,
            List.map_cons, List.flatten_cons]
          cases h1 : lookupTbl transliterationMap [c] with
          | some v =>
            simp only [h1, chunkOut, Option.getD_some]
            rw [ih _ (by omega)]
          | none =>
            simp only [h1, chunkOut, Option.getD_none]
            rw [ih _ (by omega)]
            rfl

theorem chunksGo_join :
    ∀ (fuel : Nat) (w : Str), w.length ≤ fuel → (greedyChunksGo fuel w).flatten = w := by
  intro fuel
  induction fuel with
  | zero =>
    intro w hw
    have : w = [] := List.eq_nil_of_length_eq_zero (Nat.le_zero.mp hw)
    subst this
    rfl
  | succ fuel ih =>
    intro w hw
    cases w with
    | nil => rfl
    | cons c rest =>
      have hlen : rest.length + 1 ≤ fuel + 1 := by simpa using hw
      rw [greedyChunksGo]
      by_cases h3 : (lookupTbl transliterationMap ((c :: rest).take 3)).isSome
      · rw [if_pos h3]
        rw [List.flatten_cons, ih _ (by simp only [List.length_drop, List.length_cons]; omega)]
        exact List.take_append_drop 3 (c :: rest)
      · rw [if_neg h3]
        by_cases h2 : (lookupTbl transliterationMap ((c :: rest).take 2)).isSome
        · rw [if_pos h2]
          rw [List.flatten_cons, ih _ (by simp only [List.length_drop, List.length_cons]; omega)]
          exact List.take_append_drop 2 (c :: rest)
        · rw [if_neg h2]
          rw [List.flatten_cons, ih _ (by omega)]
          rfl

theorem chunksGo_good :
    ∀ (fuel : Nat) (w : Str), w.length ≤ fuel →
      ∀ s ∈ greedyChunksGo fuel w,
        s ≠ [] ∧ s.length ≤ 3 ∧ ((lookupTbl transliterationMap s).isSome ∨ s.length = 1) := by
  intro fuel
  induction fuel with
  | zero =>
    intro w hw
    have : w = [] := List.eq_nil_of_length_eq_zero (Nat.le_zero.mp hw)
    subst this
    intro s hs
    simp [greedyChunksGo] at hs
  | succ fuel ih =>
    intro w hw
    cases w with
    | nil => intro s hs; simp [greedyChunksGo] at hs
    | cons c rest =>
      have hlen : rest.length + 1 ≤ fuel + 1 := by simpa using hw
      intro s hs
      rw [greedyChunksGo] at hs
      by_cases h3 : (lookupTbl transliterationMap ((c :: rest).take 3)).isSome
      · rw [if_pos h3] at hs
        rcases List.mem_cons.mp hs with rfl | hs
        · exact ⟨by simp, by simp, Or.inl h3⟩
        · exact ih _ (by simp only [List.length_drop, List.length_cons]; omega) s hs
      · rw [if_neg h3] at hs
        by_cases h2 : (lookupTbl transliterationMap ((c :: rest).take 2)).isSome
        · rw [if_pos h2] at hs
          rcases List.mem_cons.mp hs with rfl | hs
          · exact ⟨by simp, by simp, Or.inl h2⟩
          · exact ih _ (by simp only [List.length_drop, List.length_cons]; omega) s hs
        · rw [if_neg h2] at hs
          rcases List.mem_cons.mp hs with rfl | hs
          · exact ⟨by simp, by simp, Or.inr rfl⟩
          · exact ih _ (by omega) s hs

/-- Numeric facts about what a well-formed segment contributes to the
output: at least one character, and at most one and a half per source
character. -/
theorem chunkOut_bounds {s : Str}
    (h : s ≠ [] ∧ s.length ≤ 3 ∧ ((lookupTbl transliterationMap s).isSome ∨ s.length = 1)) :
    1 ≤ (chunkOut s).length ∧ 2 * (chunkOut s).length ≤ 3 * s.length := by
  obtain ⟨hne, hle, hmatch⟩ := h
  have hpos : 1 ≤ s.length := List.length_pos.2 hne
  cases hl : lookupTbl transliterationMap s with
  | some v =>
    obtain ⟨p, hp, hk, hv⟩ := lookupTbl_mem hl
    obtain ⟨hv1, hv3, hv1k⟩ := transliterationMap_facts p hp
    have hvne : v ≠ [] := hv ▸ hv1
    have hvlen : v.length ≤ 3 := hv ▸ hv3
    have hout : chunkOut s = v := by simp [chunkOut, hl]
    rw [hout]
    refine ⟨List.length_pos.2 hvne, ?_⟩
    rcases Nat.lt_or_ge s.length 2 with hs | hs
    · have h1 : s.length = 1 := by omega
      have : v.length ≤ 1 := hv ▸ hv1k (by rw [hk, h1])
      omega
    · omega
  | none =>
    have h1 : s.length = 1 := hmatch.resolve_left (by simp [hl])
    have hout : chunkOut s = s := by simp [chunkOut, hl]
    rw [hout]
    omega

/-- Summed bounds over the segment decomposition. -/
theorem join_chunkOut_bounds :
    ∀ cs : List Str,
      (∀ s ∈ cs, s ≠ [] ∧ s.length ≤ 3 ∧ ((lookupTbl transliterationMap s).isSome ∨ s.length = 1)) →
      cs.flatten.length ≤ 3 * ((cs.map chunkOut).flatten.length)
        ∧ 2 * ((cs.map chunkOut).flatten.length) ≤ 3 * cs.flatten.length := by
  intro cs
  induction cs with
  | nil => intro _; simp
  | cons s cs ih =>
    intro h
    have hs := h s (List.mem_cons_self _ _)
    have hcs := ih fun s' hs' => h s' (List.mem_cons_of_mem _ hs')
    have hb := chunkOut_bounds hs
    have hsl : s.length ≤ 3 := hs.2.1
    simp only [List.map_cons, List.flatten_cons, List.length_append]
    omega

/-- Bounds for the greedy scan of one whole token. -/
theorem transliterateWord_bounds (w : Str) :
    w.length ≤ 3 * (transliterateWord w).length
      ∧ 2 * (transliterateWord w).length ≤ 3 * w.length := by
  have he := twGo_eq_chunksGo w.length w (le_refl _)
  have hj := chunksGo_join w.length w (le_refl _)
  have hg := chunksGo_good w.length w (le_refl _)
  have := join_chunkOut_bounds (greedyChunksGo w.length w) hg
  rw [transliterateWord, he]
  rw [hj] at this
  exact this

/-  ------------------------------------------------------------------
    Lemmas about single-character splitting and joining (name parsing)
    ------------------------------------------------------------------ -/

theorem splitChar_of_not_mem {sep : Char} {t : Str} (h : sep ∉ t) :
    splitChar sep t = [t] := by
  induction t with
  | nil => rfl
  | cons c rest ih =>
    have hc : ¬(c = sep) := fun e => h (e ▸ List.mem_cons_self _ _)
    rw [splitChar, if_neg hc, ih fun hm => h (List.mem_cons_of_mem _ hm)]

theorem splitChar_append_sep {sep : Char} {t s : Str} (h : sep ∉ t) :
    splitChar sep (t ++ sep :: s) = t :: splitChar sep s := by
  induction t with
  | nil => simp [splitChar]
  | cons c rest ih =>
    have hc : ¬(c = sep) := fun e => h (e ▸ List.mem_cons_self _ _)
    rw [List.cons_append, splitChar, if_neg hc,
      ih fun hm => h (List.mem_cons_of_mem _ hm)]

theorem splitChar_joinSp {toks : List Str} (hne : toks ≠ [])
    (h : ∀ t ∈ toks, ' ' ∉ t) : splitChar ' ' (joinSp toks) = toks := by
  induction toks with
  | nil => exact absurd rfl hne
  | cons t ts ih =>
    cases ts with
    | nil => exact splitChar_of_not_mem (h t (List.mem_cons_self _ _))
    | cons t2 ts2 =>
      show splitChar ' ' (t ++ ' ' :: joinSp (t2 :: ts2)) = _
      rw [splitChar_append_sep (h t (List.mem_cons_self _ _)),
        ih (List.cons_ne_nil _ _) fun t' ht' => h t' (List.mem_cons_of_mem _ ht')]

/-- Positional characterization of `parseMarathiName` on a space-joined
token list: first = head, last = final token, middle = the intermediate
tokens re-joined. -/
theorem parseMarathiName_positional {toks : List Str} (hne : toks ≠ [])
    (hsp : ∀ t ∈ toks, ' ' ∉ t) :
    parseMarathiName (joinSp toks)
      = ⟨(toks.getLast?).getD [], (toks.head?).getD [], joinSp ((toks.drop 1).dropLast)⟩ := by
  unfold parseMarathiName
  rw [splitChar_joinSp hne hsp]
  rcases toks with _ | ⟨a, _ | ⟨b, _ | ⟨c, ts⟩⟩⟩
  · exact absurd rfl hne
  · simp [joinSp]
  · simp [joinSp]
  · have hlen : (a :: b :: c :: ts).length ≥ 3 := by
      simp only [List.length_cons]; omega
    rw [if_pos hlen]
    simp only [NameParts.mk.injEq]
    refine ⟨?_, ?_, ?_⟩
    · rw [List.getD_eq_getElem?_getD, List.getLast?_eq_getElem?]
    · rw [List.getD_eq_getElem?_getD, List.head?_eq_getElem?]
    · have harith : (a :: b :: c :: ts).length - 2
          = ((a :: b :: c :: ts).drop 1).length - 1 := by
        simp only [List.length_drop, List.length_cons]; omega
      rw [harith, ← List.dropLast_eq_take]

/-  ------------------------------------------------------------------
    Lemmas about the batched record fetch
    ------------------------------------------------------------------ -/

theorem getVotersByIdsGo_eq_filterMap (voters : VoterStore) :
    ∀ (fuel : Nat) (ids : List Str), ids.length ≤ fuel →
      getVotersByIdsGo voters fuel ids = ids.filterMap (fetchVoter voters) := by
  intro fuel
  induction fuel with
  | zero =>
    intro ids h
    have : ids = [] := List.eq_nil_of_length_eq_zero (Nat.le_zero.mp h)
    subst this
    rfl
  | succ fuel ih =>
    intro ids h
    cases ids with
    | nil => rfl
    | cons i ids =>
      rw [getVotersByIdsGo,
        ih _ (by simp only [List.length_drop, List.length_cons] at h ⊢; omega),
        ← List.filterMap_append, List.take_append_drop]

theorem getVotersByIds_eq_filterMap (voters : VoterStore) (ids : List Str) :
    getVotersByIds voters ids = ids.filterMap (fetchVoter voters) :=
  getVotersByIdsGo_eq_filterMap voters ids.length ids (le_refl _)

theorem getVotersByIdsGo_eq_batches (voters : VoterStore) :
    ∀ (fuel : Nat) (ids : List Str),
      getVotersByIdsGo voters fuel ids
        = ((batchesGo fuel ids).map (fun b => b.filterMap (fetchVoter voters))).flatten := by
  intro fuel
  induction fuel with
  | zero => intro ids; cases ids <;> rfl
  | succ fuel ih =>
    intro ids
    cases ids with
    | nil => rfl
    | cons i ids => rw [getVotersByIdsGo, batchesGo, List.map_cons, List.flatten_cons, ih]

theorem batchesGo_of_ne_nil {α : Type} {l : List α} (h : l ≠ []) (fuel : Nat) :
    batchesGo (fuel + 1) l = l.take 10 :: batchesGo fuel (l.drop 10) := by
  cases l with
  | nil => exact absurd rfl h
  | cons x xs => rfl

/-  ------------------------------------------------------------------
    Fallible runs coincide with pure runs over the effective stores
    ------------------------------------------------------------------ -/

theorem tier1GoE_eq {ε : Type} (t1 : TierE ε) :
    ∀ (ks acc : List Str), tier1GoE t1 ks acc = tier1Go (effTier t1) ks acc := by
  intro ks
  induction ks with
  | nil => intro acc; rfl
  | cons k ks ih =>
    intro acc
    rw [tier1GoE, tier1Go]
    cases ht : t1 k with
    | error e =>
      simp only [effTier, ht]
      exact ih acc
    | ok o =>
      cases o with
      | none =>
        simp only [effTier, ht]
        exact ih acc
      | some ids =>
        simp only [effTier, ht]
        by_cases h : (insertIds acc ids).length > 0
        · simp only [if_pos h]
        · simp only [if_neg h]
          exact ih _

theorem runTierE_eq {ε : Type} (t : TierE ε) :
    ∀ (ks acc : List Str), runTierE t ks acc = runTier (effTier t) ks acc := by
  intro ks
  induction ks with
  | nil => intro acc; rfl
  | cons k ks ih =>
    intro acc
    rw [runTierE, runTier, List.foldl_cons, List.foldl_cons]
    rw [← runTier, ← runTierE, ih]
    cases ht : t k with
    | error e => simp only [effTier, ht]
    | ok o =>
      cases o with
      | none => simp only [effTier, ht]
      | some ids => simp only [effTier, ht]

theorem searchByNameInIndexE_eq {ε : Type} (t1 t2 t3 : TierE ε)
    (firstName middleName lastName : Str) :
    searchByNameInIndexE t1 t2 t3 firstName middleName lastName
      = searchByNameInIndex (effTier t1) (effTier t2) (effTier t3)
          firstName middleName lastName := by
  simp only [searchByNameInIndexE, searchByNameInIndex, tier1GoE_eq, runTierE_eq]

theorem fetchVoterE_eq {ε : Type} (vs : VoterStoreE ε) :
    fetchVoterE vs = fetchVoter (effVoters vs) := by
  funext id
  cases h : vs id with
  | error e => simp [fetchVoterE, fetchVoter, effVoters, h]
  | ok o => cases o <;> simp [fetchVoterE, fetchVoter, effVoters, h]

theorem getVotersByIdsGoE_eq {ε : Type} (vs : VoterStoreE ε) :
    ∀ (fuel : Nat) (ids : List Str),
      getVotersByIdsGoE vs fuel ids = getVotersByIdsGo (effVoters vs) fuel ids := by
  intro fuel
  induction fuel with
  | zero => intro ids; cases ids <;> rfl
  | succ fuel ih =>
    intro ids
    cases ids with
    | nil => rfl
    | cons i ids => rw [getVotersByIdsGoE, getVotersByIdsGo, fetchVoterE_eq, ih]

theorem getVotersByIdsE_eq {ε : Type} (vs : VoterStoreE ε) (ids : List Str) :
    getVotersByIdsE vs ids = getVotersByIds (effVoters vs) ids :=
  getVotersByIdsGoE_eq vs ids.length ids

theorem runTier_none_tier {t : Tier} (h : ∀ k, t k = none) (ks acc : List Str) :
    runTier t ks acc = acc := by
  induction ks with
  | nil => rfl
  | cons k ks ih =>
    rw [runTier_cons]
    simpa [hitsOf, h k, insertIds] using ih

theorem tier1Go_none_tier {t1 : Tier} (h : ∀ k, t1 k = none) (ks acc : List Str) :
    tier1Go t1 ks acc = Sum.inr acc := by
  induction ks with
  | nil => rfl
  | cons k ks ih =>
    rw [tier1Go, h k]
    exact ih

/-  ------------------------------------------------------------------
    The claims
    ------------------------------------------------------------------ -/

/-- C1: name resolution short-circuits on the most specific tier — if some
generated key yields membership in `name_index`, the result is exactly the
(deduplicated) ids of the first such key, independent of the broader tiers;
if no `name_index` key yields anything, the result is the deduplicated union
of the hits of the remaining two tiers over all generated keys. -/
theorem name_resolution_short_circuit (t1 t2 t3 t2' t3' : Tier) (f m l : Str) :
    (∀ k0, firstHitKey t1 (generateSearchKeys f m l) = some k0 →
      searchByNameInIndex t1 t2 t3 f m l = insertIds [] (hitsOf t1 k0)
        ∧ searchByNameInIndex t1 t2 t3 f m l = searchByNameInIndex t1 t2' t3' f m l)
    ∧ ((∀ k ∈ generateSearchKeys f m l, hitsOf t1 k = []) →
      (∀ id, id ∈ searchByNameInIndex t1 t2 t3 f m l
          ↔ ∃ k ∈ generateSearchKeys f m l, id ∈ hitsOf t2 k ∨ id ∈ hitsOf t3 k)
        ∧ (searchByNameInIndex t1 t2 t3 f m l).Nodup) := by
  constructor
  · intro k0 hk
    have h1 := tier1Go_of_firstHit hk
    constructor
    · simp only [searchByNameInIndex]
      rw [h1]
    · simp only [searchByNameInIndex]
      rw [h1]
  · intro hall
    have h0 := tier1Go_of_all_empty hall
    simp only [searchByNameInIndex]
    rw [h0]
    constructor
    · intro id
      rw [mem_runTier, mem_runTier]
      simp only [List.not_mem_nil, false_or]
      constructor
      · rintro (⟨k, hk, hid⟩ | ⟨k, hk, hid⟩)
        · exact ⟨k, hk, Or.inl hid⟩
        · exact ⟨k, hk, Or.inr hid⟩
      · rintro ⟨k, hk, hid | hid⟩
        · exact Or.inl ⟨k, hk, hid⟩
        · exact Or.inr ⟨k, hk, hid⟩
    · exact nodup_runTier (nodup_runTier List.nodup_nil)

/-- Witness for C1: the spec's worked example — `name_index` holds the exact
full-name key for UXM1 and `name_index_last` holds UXM1 and UXM2, yet
resolving the full name returns exactly UXM1. -/
theorem name_resolution_short_circuit_witness :
    searchByNameInIndex exampleTier1 exampleTier2 exampleTier3
        ("मंगेश".data) ("रामदास".data) ("बधाले".data) = [("UXM1".data)] := by
  have h := (name_resolution_short_circuit exampleTier1 exampleTier2 exampleTier3
    exampleTier2 exampleTier3 ("मंगेश".data) ("रामदास".data) ("बधाले".data)).1
    ("बधाले_मंगेश_रामदास".data) (by decide)
  exact h.1.trans (by decide)

/-- C2: the search-key generator emits at most three keys, each composed of
non-empty segments joined by the underscore delimiter for the non-empty
field combinations, most specific first; on the spec's examples it produces
exactly the listed key sequences. -/
theorem generate_keys_spec (f m l : Str) :
    ((generateSearchKeys f m l).length ≤ 3
      ∧ (∀ k ∈ generateSearchKeys f m l, ∃ segs : List Str,
          segs ≠ [] ∧ (∀ s ∈ segs, s ≠ []) ∧ k = joinUnd segs))
    ∧ (generateSearchKeys f m l =
        (if transliterateToMarathi (trimChars f) ≠ [] ∧ transliterateToMarathi (trimChars m) ≠ []
              ∧ transliterateToMarathi (trimChars l) ≠ [] then
          [joinUnd [transliterateToMarathi (trimChars l), transliterateToMarathi (trimChars f),
            transliterateToMarathi (trimChars m)]] else [])
        ++ (if transliterateToMarathi (trimChars f) ≠ [] ∧ transliterateToMarathi (trimChars l) ≠ [] then
          [joinUnd [transliterateToMarathi (trimChars f), transliterateToMarathi (trimChars l)]] else [])
        ++ (if transliterateToMarathi (trimChars l) ≠ [] then
          [joinUnd [transliterateToMarathi (trimChars l)]] else []))
    ∧ generateSearchKeys ("मंगेश".data) ("रामदास".data) ("बधाले".data)
        = [("बधाले_मंगेश_रामदास".data), ("मंगेश_बधाले".data), ("बधाले".data)]
    ∧ generateSearchKeys ("मंगेश".data) [] ("बधाले".data)
        = [("मंगेश_बधाले".data), ("बधाले".data)] := by
  refine ⟨⟨?_, ?_⟩, ?_, by decide, by decide⟩
  · simp only [generateSearchKeys]
    split_ifs <;> simp
  · intro k hk
    simp only [generateSearchKeys] at hk
    rw [List.mem_append, List.mem_append] at hk
    rcases hk with (hk | hk) | hk
    · split_ifs at hk with hcond
      · rcases List.mem_singleton.mp hk with rfl
        refine ⟨[transliterateToMarathi (trimChars l), transliterateToMarathi (trimChars f),
          transliterateToMarathi (trimChars m)], by simp, ?_, by simp [joinUnd]⟩
        intro s hs
        rcases List.mem_cons.mp hs with rfl | hs
        · exact hcond.2.2
        rcases List.mem_cons.mp hs with rfl | hs
        · exact hcond.1
        rcases List.mem_cons.mp hs with rfl | hs
        · exact hcond.2.1
        exact absurd hs (List.not_mem_nil s)
      · exact absurd hk (List.not_mem_nil k)
    · split_ifs at hk with hcond
      · rcases List.mem_singleton.mp hk with rfl
        refine ⟨[transliterateToMarathi (trimChars f), transliterateToMarathi (trimChars l)],
          by simp, ?_, by simp [joinUnd]⟩
        intro s hs
        rcases List.mem_cons.mp hs with rfl | hs
        · exact hcond.1
        rcases List.mem_cons.mp hs with rfl | hs
        · exact hcond.2
        exact absurd hs (List.not_mem_nil s)
      · exact absurd hk (List.not_mem_nil k)
    · split_ifs at hk with hcond
      · rcases List.mem_singleton.mp hk with rfl
        refine ⟨[transliterateToMarathi (trimChars l)], by simp, ?_, by simp [joinUnd]⟩
        intro s hs
        rcases List.mem_cons.mp hs with rfl | hs
        · exact hcond
        exact absurd hs (List.not_mem_nil s)
      · exact absurd hk (List.not_mem_nil k)
  · simp only [generateSearchKeys]
    split_ifs <;> simp [joinUnd]

/-- Witness for C2: the two concrete key sequences of the spec. -/
theorem generate_keys_spec_witness :
    generateSearchKeys ("मंगेश".data) ("रामदास".data) ("बधाले".data)
        = [("बधाले_मंगेश_रामदास".data), ("मंगेश_बधाले".data), ("बधाले".data)]
      ∧ generateSearchKeys ("मंगेश".data) [] ("बधाले".data)
        = [("मंगेश_बधाले".data), ("बधाले".data)] :=
  ⟨(generate_keys_spec ("मंगेश".data) ("रामदास".data) ("बधाले".data)).2.2.1,
   (generate_keys_spec ("मंगेश".data) [] ("बधाले".data)).2.2.2⟩

/-- C3: with a non-empty voter-id field, `performSearch` routes to the
voter-id path on the trimmed upper-cased id and ignores the name fields;
the id path returns exactly the one exact-lookup record when it exists, and
only on a miss falls back to the case-insensitive substring scan capped at
ten results. -/
theorem voter_id_path (t1 t2 t3 : Tier) (voters : List (Str × VoterData))
    (fd : SearchFormData) (h : fd.voterId ≠ []) :
    performSearch t1 t2 t3 voters fd
        = searchByVoterId voters (upperChars (trimChars fd.voterId))
    ∧ (∀ fd' : SearchFormData, fd'.voterId = fd.voterId →
        performSearch t1 t2 t3 voters fd' = performSearch t1 t2 t3 voters fd)
    ∧ (∀ id v, List.lookup id voters = some v →
        searchByVoterId voters id = [(id, processVoterData id v)])
    ∧ (∀ id, List.lookup id voters = none →
        searchByVoterId voters id = scanVoters voters id
          ∧ (searchByVoterId voters id).length ≤ 10) := by
  have hroute : ∀ g : SearchFormData, g.voterId ≠ [] →
      performSearch t1 t2 t3 voters g
        = searchByVoterId voters (upperChars (trimChars g.voterId)) := by
    intro g hg
    simp only [performSearch]
    rw [if_neg (fun hc => hg hc.2.2.2), if_pos hg]
  refine ⟨hroute fd h, ?_, ?_, ?_⟩
  · intro fd' he
    rw [hroute fd' (he ▸ h), hroute fd h, he]
  · intro id v hlook
    simp only [searchByVoterId]
    rw [hlook]
  · intro id hlook
    simp only [searchByVoterId]
    rw [hlook]
    exact ⟨rfl, List.length_take_le 10 _⟩

/-- Witness for C3: a lower-cased, whitespace-padded id submitted together
with name fields still resolves through the exact-lookup path to the single
stored record. -/
theorem voter_id_path_witness :
    performSearch exampleTier1 exampleTier2 exampleTier3 exampleVoters exampleFormId
      = [(("UXM8227381".data), processVoterData ("UXM8227381".data) exampleVoter)] := by
  have h := voter_id_path exampleTier1 exampleTier2 exampleTier3 exampleVoters
    exampleFormId (by decide)
  rw [h.1]
  have hu : upperChars (trimChars exampleFormId.voterId) = ("UXM8227381".data) := by decide
  rw [hu]
  exact h.2.2.1 ("UXM8227381".data) exampleVoter (by decide)

/-- C4: input already in Devanagari (tokens of Devanagari code points
separated by single spaces) passes through `transliterateToMarathi`
unchanged. -/
theorem devanagari_passthrough (toks : List Str) (h1 : toks ≠ [])
    (h2 : ∀ t ∈ toks, t ≠ [] ∧ ∀ c ∈ t, isDevanagari c) :
    transliterateToMarathi (joinSp toks) = joinSp toks := by
  obtain ⟨t, ts, rfl⟩ := List.exists_cons_of_ne_nil h1
  obtain ⟨ht, hdev⟩ := h2 t (List.mem_cons_self _ _)
  obtain ⟨c, t', rfl⟩ := List.exists_cons_of_ne_nil ht
  have hmem : c ∈ joinSp ((c :: t') :: ts) := by
    cases ts with
    | nil => exact List.mem_cons_self _ _
    | cons t2 ts2 =>
      show c ∈ (c :: t') ++ ' ' :: joinSp (t2 :: ts2)
      exact List.mem_append_left _ (List.mem_cons_self _ _)
  have hcm : containsMarathi (joinSp ((c :: t') :: ts)) = true :=
    List.any_eq_true.mpr ⟨c, hmem, hdev c (List.mem_cons_self _ _)⟩
  rw [transliterateToMarathi, if_pos (Or.inr hcm)]

/-- Witness for C4: a concrete two-token Devanagari name is returned
verbatim. -/
theorem devanagari_passthrough_witness :
    transliterateToMarathi ("मंगेश बधाले".data) = ("मंगेश बधाले".data) := by
  have h := devanagari_passthrough [("मंगेश".data), ("बधाले".data)] (by decide) (by decide)
  have hj : joinSp [("मंगेश".data), ("बधाले".data)] = ("मंगेश बधाले".data) := by decide
  rw [hj] at h
  exact h

/-- C5: on a token with no dictionary entry the engine runs the greedy
longest-match scan: the consumed segments partition the token exactly (every
source character consumed once, in order), the output is the concatenation
of each segment's table image — a single unmatched character passing through
verbatim — each segment is at most three characters, and any multi-character
segment is a genuine table match; mapping a token list preserves the token
count (and `List.map` preserves relative order). -/
theorem greedy_scan_spec (w : Str) (hdict : lookupTbl commonWordMap w = none) :
    translitToken w = transliterateWord w
    ∧ (greedyChunks w).flatten = w
    ∧ transliterateWord w = ((greedyChunks w).map chunkOut).flatten
    ∧ (∀ s ∈ greedyChunks w, s ≠ [] ∧ s.length ≤ 3
        ∧ ((lookupTbl transliterationMap s).isSome ∨ (s.length = 1 ∧ chunkOut s = s)))
    ∧ (∀ toks : List Str, (toks.map translitToken).length = toks.length) := by
  refine ⟨?_, chunksGo_join w.length w (le_refl _),
    twGo_eq_chunksGo w.length w (le_refl _), ?_, fun toks => List.length_map _ _⟩
  · unfold translitToken
    rw [hdict]
  · intro s hs
    have hg := chunksGo_good w.length w (le_refl _) s hs
    refine ⟨hg.1, hg.2.1, ?_⟩
    by_cases hb : (lookupTbl transliterationMap s).isSome
    · exact Or.inl hb
    · rcases hg.2.2 with hsome | hlen1
      · exact Or.inl hsome
      · refine Or.inr ⟨hlen1, ?_⟩
        cases hl : lookupTbl transliterationMap s with
        | some v => rw [hl] at hb; simp at hb
        | none => simp [chunkOut, hl]

/-- Witness for C5: the token `ram` (no dictionary entry) is partitioned
exactly by its greedy segments and routed through the greedy scan. -/
theorem greedy_scan_spec_witness :
    (greedyChunks ("ram".data)).flatten = ("ram".data)
      ∧ translitToken ("ram".data) = transliterateWord ("ram".data) := by
  have h := greedy_scan_spec ("ram".data) (by decide)
  exact ⟨h.2.1, h.1⟩

/-- C6 (amended): the per-token transliteration is a total function whose
output is at least one third of the input length (in characters), at most
one and a half times the input length — not at most the input length, which
fails on `gy` — and empty exactly when the token is empty. -/
theorem translit_token_bounds (w : Str) :
    w.length ≤ 3 * (translitToken w).length
    ∧ 2 * (translitToken w).length ≤ 3 * w.length
    ∧ (translitToken w = [] ↔ w = []) := by
  cases hd : lookupTbl commonWordMap w with
  | some v =>
    have heq : translitToken w = v := by unfold translitToken; rw [hd]
    obtain ⟨p, hp, hk, hv⟩ := lookupTbl_mem hd
    obtain ⟨hkne, hvne, hlow, hupp⟩ := commonWordMap_facts p hp
    subst hv
    subst hk
    rw [heq]
    refine ⟨hlow, hupp, ?_⟩
    constructor
    · intro he; exact absurd he hvne
    · intro he; exact absurd he hkne
  | none =>
    have heq : translitToken w = transliterateWord w := by unfold translitToken; rw [hd]
    rw [heq]
    have hb := transliterateWord_bounds w
    refine ⟨hb.1, hb.2, ?_, ?_⟩
    · intro he
      rw [he] at hb
      simp only [List.length_nil, Nat.mul_zero] at hb
      exact List.eq_nil_of_length_eq_zero (by omega)
    · intro he
      subst he
      rfl

/-- C6 counterexample: the claimed upper bound "output length at most input
length" fails on the token `gy`, whose image `ज्ञ` has three code points. -/
theorem translit_upper_bound_cex :
    ¬ ((transliterateToMarathi ("gy".data)).length ≤ ("gy".data).length) := by
  decide

/-- C7: the batched fetch partitions a 25-id input into exactly three
consecutive batches of sizes 10, 10 and 5, equals the concatenation of the
per-batch fetches, returns at most as many results as input ids, and
silently omits every id without a record while returning the rest. -/
theorem batched_fetch (voters : VoterStore) (ids : List Str) (h : ids.length = 25) :
    (batches ids).map List.length = [10, 10, 5]
    ∧ getVotersByIds voters ids
        = ((batches ids).map (fun b => b.filterMap (fetchVoter voters))).flatten
    ∧ (getVotersByIds voters ids).length ≤ 25
    ∧ (∀ id ∈ ids, voters id = none →
        ∀ r ∈ getVotersByIds voters ids, r.1 ≠ id) := by
  refine ⟨?_, getVotersByIdsGo_eq_batches voters ids.length ids, ?_, ?_⟩
  · have h1 : ids ≠ [] := by intro e; rw [e] at h; simp at h
    have hf : ids.length = 24 + 1 := by omega
    have h2 : ids.drop 10 ≠ [] := by
      intro e
      have := congrArg List.length e
      simp only [List.length_drop, h, List.length_nil] at this
      omega
    have h3 : (ids.drop 10).drop 10 ≠ [] := by
      intro e
      have := congrArg List.length e
      simp only [List.length_drop, h, List.length_nil] at this
      omega
    have h4 : ((ids.drop 10).drop 10).drop 10 = [] := by
      rw [List.drop_eq_nil_iff]
      simp only [List.length_drop, h]
      omega
    rw [batches, hf, batchesGo_of_ne_nil h1,
      show (24 : Nat) = 23 + 1 from rfl, batchesGo_of_ne_nil h2,
      show (23 : Nat) = 22 + 1 from rfl, batchesGo_of_ne_nil h3, h4]
    simp only [batchesGo, List.map_cons, List.map_nil, List.length_take,
      List.length_drop, h]
    decide
  · rw [getVotersByIds_eq_filterMap]
    calc (ids.filterMap (fetchVoter voters)).length ≤ ids.length :=
          List.length_filterMap_le _ _
      _ ≤ 25 := by omega
  · intro id hid hnone r hr
    rw [getVotersByIds_eq_filterMap] at hr
    obtain ⟨id', hid', hfetch⟩ := List.mem_filterMap.mp hr
    cases hv : voters id' with
    | none => rw [fetchVoter, hv] at hfetch; simp at hfetch
    | some v =>
      rw [fetchVoter, hv] at hfetch
      have hr' : (id', processVoterData id' v) = r := by simpa using hfetch
      intro he
      rw [← hr'] at he
      have he' : id' = id := he
      rw [he'] at hv
      rw [hv] at hnone
      exact Option.noConfusion hnone

/-- Witness for C7: twenty-five concrete ids produce batch sizes 10, 10, 5. -/
theorem batched_fetch_witness :
    (batches ids25).map List.length = [10, 10, 5] :=
  (batched_fetch (fun _ => none) ids25 (by decide)).1

/-- C8: name parts are positional on the space-separated tokens of the full
name — first = first token, last = final token, middle = the intermediate
tokens re-joined (empty for one or two tokens; a single token is both first
and last) — with the spec's three concrete examples. -/
theorem name_parsing (toks : List Str) (h1 : toks ≠ []) (h2 : ∀ t ∈ toks, ' ' ∉ t) :
    parseMarathiName (joinSp toks)
        = ⟨(toks.getLast?).getD [], (toks.head?).getD [], joinSp ((toks.drop 1).dropLast)⟩
    ∧ parseMarathiName ("मंगेश रामदास बधाले".data)
        = ⟨("बधाले".data), ("मंगेश".data), ("रामदास".data)⟩
    ∧ parseMarathiName ("मंगेश बधाले".data) = ⟨("बधाले".data), ("मंगेश".data), []⟩
    ∧ parseMarathiName ("मंगेश".data) = ⟨("मंगेश".data), ("मंगेश".data), []⟩ :=
  ⟨parseMarathiName_positional h1 h2, by decide, by decide, by decide⟩

/-- Witness for C8: the three-token example evaluated through the positional
characterization. -/
theorem name_parsing_witness :
    parseMarathiName (joinSp [("मंगेश".data), ("रामदास".data), ("बधाले".data)])
      = ⟨("बधाले".data), ("मंगेश".data), ("रामदास".data)⟩ := by
  have h := (name_parsing [("मंगेश".data), ("रामदास".data), ("बधाले".data)]
    (by decide) (by decide)).1
  rw [h]
  decide

/-- C9: no core operation propagates an exception: name resolution over
fallible stores equals pure resolution over the effective stores (a failed
probe is an empty result for that probe, resolution continues), the batched
fetch likewise, and even when every remote read fails `performSearch`
returns the empty result list rather than an error. -/
theorem error_tolerance (ε : Type) (t1 t2 t3 : TierE ε) (vs : VoterStoreE ε)
    (f m l : Str) (ids : List Str) (e : ε) (fd : SearchFormData) :
    searchByNameInIndexE t1 t2 t3 f m l
        = searchByNameInIndex (effTier t1) (effTier t2) (effTier t3) f m l
    ∧ getVotersByIdsE vs ids = getVotersByIds (effVoters vs) ids
    ∧ performSearchE (fun _ => Except.error e) (fun _ => Except.error e)
        (fun _ => Except.error e) (fun _ => Except.error e) (Except.error e) fd = [] := by
  refine ⟨searchByNameInIndexE_eq t1 t2 t3 f m l, getVotersByIdsE_eq vs ids, ?_⟩
  have hnone : ∀ k, effTier (fun _ : Str => Except.error (ε := ε) e) k = none :=
    fun _ => rfl
  have hsearch : ∀ f' m' l', searchByNameInIndexE (fun _ : Str => Except.error (ε := ε) e)
      (fun _ => Except.error e) (fun _ => Except.error e) f' m' l' = [] := by
    intro f' m' l'
    rw [searchByNameInIndexE_eq]
    simp only [searchByNameInIndex]
    rw [tier1Go_none_tier hnone]
    show runTier _ _ (runTier _ _ []) = []
    rw [runTier_none_tier hnone, runTier_none_tier hnone]
  simp only [performSearchE, hsearch, searchByVoterIdE, List.length_nil]
  split_ifs <;> rfl

/-- C10: the batched fetch is exactly the input id list restricted to the
ids present in the store, in input order — a deterministic function of the
store and the input sequence. -/
theorem fetch_preserves_order (voters : VoterStore) (ids : List Str) :
    getVotersByIds voters ids = ids.filterMap (fetchVoter voters)
    ∧ (getVotersByIds voters ids).map Prod.fst
        = ids.filter (fun id => (voters id).isSome) := by
  refine ⟨getVotersByIds_eq_filterMap voters ids, ?_⟩
  rw [getVotersByIds_eq_filterMap]
  induction ids with
  | nil => rfl
  | cons i ids ih =>
    rw [List.filterMap_cons, List.filter_cons]
    cases hv : voters i with
    | none =>
      have hf : fetchVoter voters i = none := by simp [fetchVoter, hv]
      rw [hf]
      simp only [hv, Option.isSome_none, Bool.false_eq_true, if_false]
      exact ih
    | some v =>
      have hf : fetchVoter voters i = some (i, processVoterData i v) := by
        simp [fetchVoter, hv]
      rw [hf]
      simp only [hv, Option.isSome_some, if_true, List.map_cons]
      rw [ih]

end VoterSearch
